import Mathlib

/-
Verification of the scheduler-poc repository (TypeScript sources) against its
natural-language specification.

The embedding below translates the relevant program parts into Lean:

* `src/utils/scheduler.ts` — the greedy scheduler: trip model (`TripInfo`),
  vehicle model (`VehicleInfo`), mobility-assistance parsing (`parseMA`,
  `priorityMa`), last-leg marking (`markLastLeg`), priority bucketing
  (`getPriorityTrips`), the fit check (`isTripFitVehicle`), the arrival
  comparison (`isBetter`), and the assignment loop (`scheduleTrips`).
  JavaScript `Date` instants and second counts are modelled as `Int`
  (seconds); the scheduler only adds, negates and compares them.
  The external `GetDirection` routing call is modelled as an oracle
  `Directions` passed to every function that queries it.
* the margin accessors of the request context (`beforePickupInSec`,
  `afterPickupInSec`, `dropoffUnloadingInSec`) are modelled over `ℚ`,
  because they divide by 1000 (JavaScript number division).
* `src/scheduler/cache.ts` — the in-memory LRU cache with TTL.  A JavaScript
  `Map` preserves insertion order and has unique keys; it is modelled as an
  association list ordered oldest-first, where `Map.delete` removes the (at
  most one) binding of the key, `Map.set` appends at the end, and `Date.now()`
  is an explicit `now : Int` argument to each operation.
* `src/processor/task.ts`, `src/processor/worker.ts`,
  `src/processor/processor.ts` — the task pipeline, modelled as a state
  machine over the persisted statuses: tasks are inserted PENDING
  (`TaskManager.CreateTask`), a batch of PENDING docs is claimed to
  PROCESSING (`fetchPendingDocs`: the mongo query filters on
  `status: PENDING` and `find` returns distinct documents), and the worker
  terminates each claimed doc with COMPLETED or FAILED (`process`).
-/

namespace Sched

/-- Result of a `GetDirection` routing query (src/utils/direction.ts). -/
structure DirectionResult where
  distanceInMeter : Int
  durationInSec : Int
deriving DecidableEq

/-- The routing oracle: `GetDirection(from, to, departureTime)`. -/
def Directions : Type := String → String → Int → Option DirectionResult

/-- The per-request margins of the `context` class (src/utils/scheduler.ts,
lines 57-69), already resolved to seconds.  The scheduler only reads these
three values from the context. -/
structure context where
  beforePickupInSec : Int
  afterPickupInSec : Int
  dropoffUnloadingInSec : Int
deriving DecidableEq

/-- `TripInfo` (src/utils/scheduler.ts, lines 320-372): the derived per-booking
trip.  `isLast` is `false` and the two scheduling outputs are `null` after
construction. -/
structure TripInfo where
  pickupAddress : String
  dropOffAddress : String
  passenger : String
  assistance : Nat
  pickupTime : Int
  distanceInMeter : Int
  durationInSec : Int
  isLast : Bool
  adjustedPickupTime : Option Int
  earliestArrivalTime : Option Int
deriving DecidableEq

/-- `VehicleInfo` (src/utils/scheduler.ts, lines 457-497): an index assigned at
creation and the ordered list of assigned trips. -/
structure VehicleInfo where
  idx : Nat
  trips : List TripInfo
deriving DecidableEq

/-- `MobilityAssistance` values used by the scheduler (enum at lines 72-78). -/
def Ambulatory : Nat := 1

/-- Wheelchair flag of the `MobilityAssistance` bitmask. -/
def Wheelchair : Nat := 2

/-- Stretcher flag of the `MobilityAssistance` bitmask. -/
def Stretcher : Nat := 16

/-- The inner `parse` of `parseMA` (lines 82-91): case-insensitive tag
parsing; unknown tags map to `Ambulatory`. -/
def parse (str : String) : Nat :=
  if str.toUpper = "STRETCHER" then Stretcher
  else if str.toUpper = "WHEELCHAIR" then Wheelchair
  else Ambulatory

/-- `parseMA` (lines 81-93): `args.map(parse).reduce((prev, cur) => prev | cur)`.
A JavaScript `reduce` without initial value throws a `TypeError` on an empty
array, hence the `Option`. -/
def parseMA (args : List String) : Option Nat :=
  match args.map parse with
  | [] => none
  | x :: xs => some (xs.foldl (fun prev current => prev ||| current) x)

/-- `priorityMa` (lines 95-103): bucket 0 for stretcher, 1 for wheelchair,
2 otherwise. -/
def priorityMa (ma : Nat) : Nat :=
  if ma &&& Stretcher ≠ 0 then 0
  else if ma &&& Wheelchair ≠ 0 then 1
  else 2

/-- `TripInfo.latestPickupTime` (lines 386-393). -/
def latestPickupTime (ctx : context) (t : TripInfo) : Int :=
  if t.isLast then t.pickupTime + ctx.afterPickupInSec else t.pickupTime

/-- `TripInfo.dropoffTime` (lines 395-400). -/
def dropoffTime (t : TripInfo) : Int :=
  match t.adjustedPickupTime with
  | some adjusted => adjusted + t.durationInSec
  | none => t.pickupTime + t.durationInSec

/-- `TripInfo.finishTime` (lines 402-404). -/
def finishTime (ctx : context) (t : TripInfo) : Int :=
  dropoffTime t + ctx.dropoffUnloadingInSec

/-- `Scheduler.isTripFitVehicle` (lines 237-266).  The source asserts the
vehicle is non-empty and reads `trips[trips.length - 1]`; an empty vehicle
yields `none` here. -/
def isTripFitVehicle (ctx : context) (dir : Directions) (vehicle : VehicleInfo)
    (next : TripInfo) : Option Int :=
  match vehicle.trips.getLast? with
  | none => none
  | some last =>
    if finishTime ctx last > latestPickupTime ctx next then none
    else if last.dropOffAddress = next.pickupAddress then some (finishTime ctx last)
    else
      match dir last.dropOffAddress next.pickupAddress (finishTime ctx last) with
      | none => none
      | some direction =>
        let estimatedArrival := finishTime ctx last + direction.durationInSec
        if estimatedArrival > latestPickupTime ctx next then none
        else some estimatedArrival

/-- `Scheduler.isBetter` (lines 270-285). -/
def isBetter (ctx : context) (coming current : Int) (trip : TripInfo) : Bool :=
  if trip.isLast then
    if current > trip.pickupTime then decide (coming < current)
    else decide (coming > current)
  else
    let earlyArrival := trip.pickupTime + (-1) * ctx.beforePickupInSec
    if current > earlyArrival then decide (coming < current)
    else decide (coming > current)

/-- The vehicle scan of `scheduleTrips` (lines 198-213): iterate the plan in
creation order keeping the best `(vehicle index, arrival)` pair. -/
def findBestGo (ctx : context) (dir : Directions) (trip : TripInfo) :
    List VehicleInfo → Nat → Option (Nat × Int) → Option (Nat × Int)
  | [], _, best => best
  | vehicle :: rest, i, best =>
    match isTripFitVehicle ctx dir vehicle trip, best with
    | none, _ => findBestGo ctx dir trip rest (i + 1) best
    | some arrival, none => findBestGo ctx dir trip rest (i + 1) (some (i, arrival))
    | some arrival, some (bi, bestArrival) =>
      if isBetter ctx arrival bestArrival trip then
        findBestGo ctx dir trip rest (i + 1) (some (i, arrival))
      else
        findBestGo ctx dir trip rest (i + 1) (some (bi, bestArrival))

/-- Scan the whole plan from index 0 with no best candidate yet. -/
def findBest (ctx : context) (dir : Directions) (plan : List VehicleInfo)
    (trip : TripInfo) : Option (Nat × Int) :=
  findBestGo ctx dir trip plan 0 none

/-- `VehicleInfo.addTrip` (lines 471-473). -/
def addTrip (v : VehicleInfo) (t : TripInfo) : VehicleInfo :=
  { v with trips := v.trips ++ [t] }

/-- Mutating `bestVehicle` inside the plan array: replace the vehicle at the
given index by the vehicle with the trip appended. -/
def addTripAt : List VehicleInfo → Nat → TripInfo → List VehicleInfo
  | [], _, _ => []
  | v :: rest, 0, t => addTrip v t :: rest
  | v :: rest, i + 1, t => v :: addTripAt rest i t

/-- One iteration of the trip loop of `Scheduler.scheduleTrips`
(lines 192-231): find the best vehicle; if none, create a new vehicle with
index `plan.length + 1` and set the first trip's `earliestArrivalTime`;
otherwise append to the best vehicle and record the best arrival.  In both
cases set `adjustedPickupTime` by the line-230 ternary
`(bestArrival === null || bestArrival < pickupTime) ? pickupTime : bestArrival`. -/
def schedule1 (ctx : context) (dir : Directions) (plan : List VehicleInfo)
    (trip : TripInfo) : List VehicleInfo :=
  match findBest ctx dir plan trip with
  | none =>
    plan ++ [{ idx := plan.length + 1,
               trips := [{ trip with
                 earliestArrivalTime :=
                   some (if trip.isLast then trip.pickupTime
                         else trip.pickupTime + (-1) * ctx.beforePickupInSec),
                 adjustedPickupTime := some trip.pickupTime }] }]
  | some (i, bestArrival) =>
    addTripAt plan i { trip with
      earliestArrivalTime := some bestArrival,
      adjustedPickupTime :=
        some (if bestArrival < trip.pickupTime then trip.pickupTime else bestArrival) }

/-- `Scheduler.scheduleTrips` (lines 190-233): schedule a bucket of trips onto
the running plan. -/
def scheduleTrips (ctx : context) (dir : Directions) (plan : List VehicleInfo)
    (trips : List TripInfo) : List VehicleInfo :=
  trips.foldl (schedule1 ctx dir) plan

/-- The sort at the start of `markLastLeg` (line 151):
`trips.sort((lhs, rhs) => lhs.pickupTime - rhs.pickupTime)`.
`Array.prototype.sort` is a stable ascending sort under the comparator; a
stable sort of a list under a total preorder is unique, so the stable
insertion sort computes exactly it. -/
def sortByPickup (trips : List TripInfo) : List TripInfo :=
  List.insertionSort (fun lhs rhs => lhs.pickupTime ≤ rhs.pickupTime) trips

/-- The marking pass of `markLastLeg` (lines 155-169): walking the sorted
array, a trip is marked iff its passenger has at least two trips in the day
and no later trip in the sorted array belongs to the same passenger (the
reverse iteration puts the passenger's latest trip at the head of the map
entry, and only that head is marked when the entry has more than one trip). -/
def markGo (full : List TripInfo) : List TripInfo → List TripInfo
  | [] => []
  | t :: rest =>
    (if 2 ≤ full.countP (fun u => u.passenger == t.passenger) ∧
        rest.all (fun u => !(u.passenger == t.passenger))
     then { t with isLast := true } else t) :: markGo full rest

/-- `Scheduler.markLastLeg` (lines 149-175). -/
def markLastLeg (trips : List TripInfo) : List TripInfo :=
  markGo (sortByPickup trips) (sortByPickup trips)

/-- `Scheduler.getPriorityTrips` (lines 177-188): stable split into the
priority buckets 0, 1, 2. -/
def getPriorityTrips (trips : List TripInfo) : List (List TripInfo) :=
  [trips.filter (fun t => priorityMa t.assistance == 0),
   trips.filter (fun t => priorityMa t.assistance == 1),
   trips.filter (fun t => priorityMa t.assistance == 2)]

/-- The scheduling core of `Scheduler.DoSchedule` (lines 127-137) after trip
construction: mark last legs, bucket by priority, and schedule the buckets in
order onto an initially empty plan. -/
def DoSchedule (ctx : context) (dir : Directions) (trips : List TripInfo) :
    List VehicleInfo :=
  (getPriorityTrips (markLastLeg trips)).foldl (scheduleTrips ctx dir) []

/-- The configured defaults read by the context accessors
(src/utils/scheduler.ts, lines 7-22), in milliseconds. -/
structure SchedulerConfig where
  DEFAULT_BEFORE_PICKUP_TIME : ℚ
  DEFAULT_AFTER_PICKUP_TIME : ℚ
  DEFAULT_DROPOFF_UNLOADING_TIME : ℚ

/-- The optional per-request overrides (src/interfaces.ts, lines 56-59,
documented there as seconds). -/
structure RequestTimes where
  before_pickup_time : Option ℚ
  after_pickup_time : Option ℚ
  dropoff_unloading_time : Option ℚ

/-- `context.beforePickupInSec` (lines 57-60):
`(request.before_pickup_time ?? config.DEFAULT_BEFORE_PICKUP_TIME) / 1000`.
JavaScript number division, over `ℚ`.  Note that the parenthesisation divides
the request override by 1000 as well. -/
def beforePickupInSecOf (config : SchedulerConfig) (request : RequestTimes) : ℚ :=
  (request.before_pickup_time.getD config.DEFAULT_BEFORE_PICKUP_TIME) / 1000

/-- `context.afterPickupInSec` (lines 62-65). -/
def afterPickupInSecOf (config : SchedulerConfig) (request : RequestTimes) : ℚ :=
  (request.after_pickup_time.getD config.DEFAULT_AFTER_PICKUP_TIME) / 1000

/-- `context.dropoffUnloadingInSec` (lines 66-69). -/
def dropoffUnloadingInSecOf (config : SchedulerConfig) (request : RequestTimes) : ℚ :=
  (request.dropoff_unloading_time.getD config.DEFAULT_DROPOFF_UNLOADING_TIME) / 1000

/-- `CacheItem` (src/scheduler/cache.ts, lines 31-34): `expireAt` is `null`
(`none`) for entries that never expire. -/
structure CacheItem (V : Type) where
  value : V
  expireAt : Option Int
deriving DecidableEq

/-- The in-memory `LRUCache` (src/scheduler/cache.ts, lines 36-110).  The
JavaScript `Map` is an insertion-ordered, unique-key map, modelled as an
association list ordered oldest-first. -/
structure LRUCache (K V : Type) where
  capacity : Nat
  TTL : Option Int
  cache : List (K × CacheItem V)
deriving DecidableEq

namespace LRUCache

variable {K V : Type} [DecidableEq K]

/-- `isExpired` (lines 48-50): `expireAt !== null && expireAt <= Date.now()`. -/
def isExpired (item : CacheItem V) (now : Int) : Bool :=
  match item.expireAt with
  | none => false
  | some e => decide (e ≤ now)

/-- `Map.get`: the binding of `key`, if any. -/
def lookup (entries : List (K × CacheItem V)) (key : K) : Option (CacheItem V) :=
  (entries.find? (fun e => e.1 == key)).map (fun e => e.2)

/-- `Map.delete key`: a JavaScript `Map` holds at most one binding per key, so
removing every pair with this key removes exactly that binding. -/
def eraseKey (entries : List (K × CacheItem V)) (key : K) : List (K × CacheItem V) :=
  entries.filter (fun e => !(e.1 == key))

/-- `get` (lines 52-65): miss on absent, delete-and-miss on expired, otherwise
move the entry to the most-recently-used end and return its value.  Returns
the result together with the updated cache. -/
def get (s : LRUCache K V) (key : K) (now : Int) : Option V × LRUCache K V :=
  match lookup s.cache key with
  | none => (none, s)
  | some item =>
    if isExpired item now then (none, { s with cache := eraseKey s.cache key })
    else (some item.value, { s with cache := eraseKey s.cache key ++ [(key, item)] })

/-- `evictExpiredOrOldest` (lines 78-89): delete the first expired entry if
one exists, otherwise the oldest (first) key; on an empty map the `delete` of
`undefined` is a no-op. -/
def evictExpiredOrOldest (s : LRUCache K V) (now : Int) : LRUCache K V :=
  match s.cache.find? (fun e => isExpired e.2 now) with
  | some e => { s with cache := eraseKey s.cache e.1 }
  | none =>
    match s.cache.head? with
    | some e => { s with cache := eraseKey s.cache e.1 }
    | none => s

/-- `put` (lines 67-76): stamp `expireAt = TTL !== null ? now + TTL : null`;
delete an existing binding of the key, else evict when at capacity; insert at
the most-recently-used end. -/
def put (s : LRUCache K V) (key : K) (value : V) (now : Int) : LRUCache K V :=
  let expireAt : Option Int := s.TTL.map (fun ttl => now + ttl)
  let entries :=
    if (lookup s.cache key).isSome then eraseKey s.cache key
    else if s.capacity ≤ s.cache.length then (evictExpiredOrOldest s now).cache
    else s.cache
  { s with cache := entries ++ [(key, { value := value, expireAt := expireAt })] }

end LRUCache

/-- One cache operation together with the `Date.now()` instant at which it
runs. -/
inductive CacheOp (K V : Type) where
  | get (key : K) (now : Int)
  | put (key : K) (value : V) (now : Int)

/-- Apply one operation to the cache (the `get` result value is discarded). -/
def applyCacheOp {K V : Type} [DecidableEq K] (s : LRUCache K V) :
    CacheOp K V → LRUCache K V
  | .get key now => (LRUCache.get s key now).2
  | .put key value now => LRUCache.put s key value now

/-- Run a sequence of cache operations. -/
def runCacheOps {K V : Type} [DecidableEq K] (s : LRUCache K V)
    (ops : List (CacheOp K V)) : LRUCache K V :=
  ops.foldl applyCacheOp s

/-- A freshly constructed `LRUCache` (constructor, lines 41-46): empty map;
the constructor rejects `capacity ≤ 0`. -/
def emptyLRU (K V : Type) (capacity : Nat) (ttl : Option Int) : LRUCache K V :=
  { capacity := capacity, TTL := ttl, cache := [] }

/-- `TaskStatus` (src/processor/task.ts, lines 71-76). -/
inductive TaskStatus where
  | pending
  | processing
  | completed
  | failed
deriving DecidableEq

/-- The persisted side of the task pipeline plus the dispatcher's transient
state: the status of each document id, the snapshots taken by a
`find({status: PENDING})` whose `updateMany` has not run yet, and the ids
handed to the worker pool, each still owing its one terminal write. -/
structure TaskStore where
  status : Nat → Option TaskStatus
  pendingClaims : List (List Nat)
  dispatched : List Nat

/-- Point update of one document's status. -/
def setStatus (f : Nat → Option TaskStatus) (id : Nat) (st : TaskStatus) :
    Nat → Option TaskStatus :=
  fun j => if j = id then some st else f j

/-- `updateMany({_id: {$in: ids}}, {$set: {status}})` — no status filter. -/
def setMany (f : Nat → Option TaskStatus) (ids : List Nat) (st : TaskStatus) :
    Nat → Option TaskStatus :=
  fun j => if j ∈ ids then some st else f j

/-- The I/O steps of the task pipeline.  `fetchPendingDocs`
(src/processor/worker.ts dispatcher, lines 269-289) is two separate
round-trips that other ticks, dispatchers and workers can interleave with:
`findPending` is the snapshot `find({status: PENDING}).limit(n).toArray()`
(distinct documents, PENDING at read time), and `markProcessing k` is the
later `updateMany({_id: {$in: ids}}, {$set: {status: PROCESSING}})` of the
`k`-th outstanding snapshot, which filters on `_id` only — it does not check
the documents are still PENDING — and hands the batch to the worker pool.
`create` is `TaskManager.CreateTask` inserting a fresh document with status
PENDING (the `_id` of an insert is always new).  `workerComplete` and
`workerFail` are the two terminal writes of `process`
(src/processor/worker.ts, lines 27-54), one per dispatched id. -/
inductive TaskEvent where
  | create (id : Nat)
  | findPending (ids : List Nat)
  | markProcessing (k : Nat)
  | workerComplete (id : Nat)
  | workerFail (id : Nat)

/-- One step of the task pipeline.  An event the program cannot emit (a
duplicate insert, a find returning a non-PENDING or duplicated document, an
`updateMany` without a snapshot, a worker write for an undispatched id)
leaves the store unchanged.  `markProcessing` deliberately has no status
guard: the source's `updateMany` overwrites whatever status the snapshot ids
have by then. -/
def taskStep (s : TaskStore) : TaskEvent → TaskStore
  | .create id =>
    if s.status id = none then
      { s with status := setStatus s.status id .pending }
    else s
  | .findPending ids =>
    if ids.Nodup ∧ ∀ i ∈ ids, s.status i = some .pending then
      { s with pendingClaims := s.pendingClaims ++ [ids] }
    else s
  | .markProcessing k =>
    match s.pendingClaims[k]? with
    | some ids =>
      { status := setMany s.status ids .processing,
        pendingClaims := s.pendingClaims.eraseIdx k,
        dispatched := s.dispatched ++ ids }
    | none => s
  | .workerComplete id =>
    if id ∈ s.dispatched then
      { s with status := setStatus s.status id .completed,
               dispatched := s.dispatched.erase id }
    else s
  | .workerFail id =>
    if id ∈ s.dispatched then
      { s with status := setStatus s.status id .failed,
               dispatched := s.dispatched.erase id }
    else s

/-- The store before any request: no documents, no snapshots, no workers. -/
def initStore : TaskStore :=
  { status := fun _ => none, pendingClaims := [], dispatched := [] }

/-- Run the pipeline from the initial store. -/
def runTasks (es : List TaskEvent) : TaskStore :=
  es.foldl taskStep initStore

/-- The status transitions the claim allows for one document: unchanged,
inserted as PENDING, PENDING to PROCESSING, or PROCESSING to a terminal
status. -/
def allowedChange (s s' : Option TaskStatus) : Prop :=
  s' = s ∨
  (s = none ∧ s' = some .pending) ∨
  (s = some .pending ∧ s' = some .processing) ∨
  (s = some .processing ∧ (s' = some .completed ∨ s' = some .failed))

/-- A claim phase is about to run safely: if the event is the `updateMany` of
an outstanding snapshot, that snapshot's ids are still PENDING.  This is what
an atomic (or serialized, non-overlapping) claim guarantees and what the
source's two-phase claim does not check. -/
def claimReadyB (s : TaskStore) : TaskEvent → Bool
  | .markProcessing k =>
    match s.pendingClaims[k]? with
    | some ids => ids.all (fun i => decide (s.status i = some TaskStatus.pending))
    | none => true
  | _ => true

/-- Every claim phase along the trace runs while its snapshot is still all
PENDING — true of a single dispatcher whose ticks do not overlap. -/
def serializedFrom (s : TaskStore) : List TaskEvent → Bool
  | [] => true
  | e :: es => claimReadyB s e && serializedFrom (taskStep s e) es

/-- Invariant of the dispatcher/worker pipeline under serialized claims: the
dispatched ids are distinct and PROCESSING, and every outstanding snapshot
holds distinct ids. -/
def InvStore (s : TaskStore) : Prop :=
  s.dispatched.Nodup ∧
  (∀ id ∈ s.dispatched, s.status id = some TaskStatus.processing) ∧
  (∀ ids ∈ s.pendingClaims, ids.Nodup)

/-- The order in which the scheduler processes trips: bucket priority first
(`priorityMa`), booked pickup time within a bucket.  A vehicle only ever has
trips appended at its end, so its trip list is sorted by this relation. -/
def keyLE (a b : TripInfo) : Prop :=
  priorityMa a.assistance < priorityMa b.assistance ∨
  (priorityMa a.assistance = priorityMa b.assistance ∧ a.pickupTime ≤ b.pickupTime)

/-! ### Helper lemmas -/

theorem lor_pos_left (a b : Nat) (h : 0 < a) : 0 < a ||| b := by
  rcases Nat.eq_zero_or_pos (a ||| b) with h0 | h1
  · exfalso
    have ha : ∀ i, a.testBit i = false := by
      intro i
      have h2 := Nat.testBit_lor a b i
      rw [h0] at h2
      rw [Nat.zero_testBit] at h2
      exact (Bool.or_eq_false_iff.mp h2.symm).1
    have : a = 0 := Nat.eq_of_testBit_eq (fun i => by rw [ha i, Nat.zero_testBit])
    omega
  · exact h1

theorem foldl_lor_pos (l : List Nat) (acc : Nat) (h : 0 < acc) :
    0 < l.foldl (fun prev current => prev ||| current) acc := by
  induction l generalizing acc with
  | nil => exact h
  | cons x xs ih => exact ih (acc ||| x) (lor_pos_left acc x h)

theorem parse_pos (s : String) : 0 < parse s := by
  unfold parse
  split
  · decide
  · split
    · decide
    · decide

/-! ### Theorems for the claims -/

/-- C1: for every non-empty vehicle and candidate trip `t`, the fit check
returns `none` when the last assigned trip's finish time exceeds `t`'s latest
pickup time; the last trip's finish time when the last drop-off address
equals `t`'s pickup address; and otherwise, with `r` the routed reposition
duration, `arrival = finish + r`, returning `none` when the route is absent
or the arrival exceeds `t`'s latest pickup time, and the arrival otherwise. -/
theorem isTripFitVehicle_spec (ctx : context) (dir : Directions)
    (vehicle : VehicleInfo) (next last : TripInfo)
    (h : vehicle.trips.getLast? = some last) :
    isTripFitVehicle ctx dir vehicle next =
      if finishTime ctx last > latestPickupTime ctx next then none
      else if last.dropOffAddress = next.pickupAddress then
        some (finishTime ctx last)
      else
        match dir last.dropOffAddress next.pickupAddress (finishTime ctx last) with
        | none => none
        | some r =>
          if finishTime ctx last + r.durationInSec > latestPickupTime ctx next then none
          else some (finishTime ctx last + r.durationInSec) := by
  unfold isTripFitVehicle
  rw [h]

/-- Witness for C1: a concrete vehicle whose last trip finishes at 230 and
drops off exactly at the pickup address of the next trip. -/
theorem isTripFitVehicle_spec_witness :
    isTripFitVehicle ⟨300, 600, 120⟩ (fun _ _ _ => none)
        ⟨1, [⟨"A", "B", "p", 1, 100, 5, 10, false, none, none⟩]⟩
        ⟨"B", "C", "q", 1, 500, 5, 10, false, none, none⟩ = some 230 := by
  rw [isTripFitVehicle_spec ⟨300, 600, 120⟩ (fun _ _ _ => none)
    ⟨1, [⟨"A", "B", "p", 1, 100, 5, 10, false, none, none⟩]⟩
    ⟨"B", "C", "q", 1, 500, 5, 10, false, none, none⟩
    ⟨"A", "B", "p", 1, 100, 5, 10, false, none, none⟩ rfl]
  decide

/-- C2: `isBetter incoming current t` holds iff: on a last leg with `current`
already past the booked pickup time, `incoming < current`; on a last leg
otherwise, `incoming > current`; on a non-last leg with `current` past
`pickupTime - beforePickup`, `incoming < current`; otherwise
`incoming > current`. -/
theorem isBetter_spec (ctx : context) (incoming current : Int) (t : TripInfo) :
    isBetter ctx incoming current t = true ↔
      ((t.isLast = true ∧ current > t.pickupTime ∧ incoming < current) ∨
       (t.isLast = true ∧ ¬current > t.pickupTime ∧ incoming > current) ∨
       (t.isLast = false ∧ current > t.pickupTime - ctx.beforePickupInSec ∧
         incoming < current) ∨
       (t.isLast = false ∧ ¬current > t.pickupTime - ctx.beforePickupInSec ∧
         incoming > current)) := by
  have e : t.pickupTime + (-1) * ctx.beforePickupInSec =
      t.pickupTime - ctx.beforePickupInSec := by ring
  unfold isBetter
  cases h : t.isLast <;>
    simp only [h, if_true, if_false, Bool.false_eq_true, Bool.true_eq_false, e] <;>
    split_ifs with hc <;>
    simp [hc, decide_eq_true_iff]

/-- C6: the effective margins divide the request override by 1000 as well
(the code computes `(override ?? DEFAULT) / 1000`), so an override of 300
(seconds, per the field documentation in src/interfaces.ts) yields an
effective margin of 3/10 of a second, not 300 seconds. -/
theorem margin_override_divided_by_1000 :
    beforePickupInSecOf ⟨60000, 60000, 60000⟩ ⟨some 300, none, none⟩ = 3 / 10 ∧
    afterPickupInSecOf ⟨60000, 60000, 60000⟩ ⟨none, some 300, none⟩ = 3 / 10 ∧
    dropoffUnloadingInSecOf ⟨60000, 60000, 60000⟩ ⟨none, none, some 300⟩ = 3 / 10 ∧
    (3 / 10 : ℚ) ≠ 300 := by
  refine ⟨?_, ?_, ?_, ?_⟩ <;>
    norm_num [beforePickupInSecOf, afterPickupInSecOf, dropoffUnloadingInSecOf]

/-- C8: on every non-empty tag list (the `TypeError` thrown by `reduce` on an
empty array aside), `parseMA` returns the bitwise OR of the case-insensitively
parsed tags (`STRETCHER` to 16, `WHEELCHAIR` to 2, anything else to
`Ambulatory = 1`), and the result is strictly positive. -/
theorem parseMA_spec (args : List String) (h : args ≠ []) :
    ∃ m, parseMA args = some m ∧ 0 < m ∧
      m = (args.map parse).foldl (fun prev current => prev ||| current) 0 := by
  match args with
  | [] => exact absurd rfl h
  | x :: xs =>
    refine ⟨(xs.map parse).foldl (fun prev current => prev ||| current) (parse x),
      rfl, ?_, ?_⟩
    · exact foldl_lor_pos _ _ (parse_pos x)
    · simp [List.foldl_cons, Nat.zero_or]

/-- Witness for C8 at the tag list `["Wheelchair", "unknown"]`. -/
theorem parseMA_spec_witness :
    ∃ m, parseMA ["Wheelchair", "unknown"] = some m ∧ 0 < m ∧
      m = ((["Wheelchair", "unknown"] : List String).map parse).foldl
            (fun prev current => prev ||| current) 0 :=
  parseMA_spec ["Wheelchair", "unknown"] (by decide)


/-! ### LRU cache lemmas -/

namespace LRUCache

variable {K V : Type} [DecidableEq K]

theorem get_eq_none (s : LRUCache K V) (key : K) (now : Int)
    (h : lookup s.cache key = none) : get s key now = (none, s) := by
  unfold get
  rw [h]

theorem get_eq_some (s : LRUCache K V) (key : K) (now : Int) (item : CacheItem V)
    (h : lookup s.cache key = some item) :
    get s key now =
      if isExpired item now then (none, { s with cache := eraseKey s.cache key })
      else (some item.value,
            { s with cache := eraseKey s.cache key ++ [(key, item)] }) := by
  unfold get
  rw [h]

theorem put_cache_eq (s : LRUCache K V) (key : K) (value : V) (now : Int) :
    (put s key value now).cache =
      (if (lookup s.cache key).isSome = true then eraseKey s.cache key
       else if s.capacity ≤ s.cache.length then (evictExpiredOrOldest s now).cache
       else s.cache) ++
      [(key, { value := value, expireAt := s.TTL.map (fun ttl => now + ttl) })] :=
  rfl

theorem lookup_eraseKey_self (entries : List (K × CacheItem V)) (key : K) :
    lookup (eraseKey entries key) key = none := by
  induction entries with
  | nil => rfl
  | cons e l ih =>
    by_cases h : (e.1 == key) = true
    · simp only [eraseKey, List.filter_cons, h, Bool.not_true, if_false] at ih ⊢
      exact ih
    · simp only [eraseKey, List.filter_cons, h] at ih ⊢
      simp only [Bool.not_false, if_true, lookup, List.find?, h] at ih ⊢
      exact ih

theorem lookup_none_filter (entries : List (K × CacheItem V)) (key : K)
    (p : K × CacheItem V → Bool) (h : lookup entries key = none) :
    lookup (entries.filter p) key = none := by
  induction entries with
  | nil => rfl
  | cons e l ih =>
    by_cases he : (e.1 == key) = true
    · simp [lookup, List.find?, he] at h
    · simp only [lookup, List.find?, he] at h
      rcases hp : p e with _ | _
      · simpa [List.filter_cons, hp] using ih h
      · simp only [List.filter_cons, hp, if_true]
        simpa [lookup, List.find?, he] using ih h

theorem lookup_append_self (entries : List (K × CacheItem V)) (key : K)
    (item : CacheItem V) (h : lookup entries key = none) :
    lookup (entries ++ [(key, item)]) key = some item := by
  induction entries with
  | nil => simp [lookup, List.find?]
  | cons e l ih =>
    by_cases he : (e.1 == key) = true
    · simp [lookup, List.find?, he] at h
    · simp only [lookup, List.find?, he] at h
      simp only [List.cons_append, lookup, List.find?, he]
      exact ih h

theorem evict_cache_cases (s : LRUCache K V) (now : Int) :
    (evictExpiredOrOldest s now).cache = s.cache ∨
    ∃ k, (evictExpiredOrOldest s now).cache = eraseKey s.cache k := by
  unfold evictExpiredOrOldest
  rcases hf : s.cache.find? (fun e => isExpired e.2 now) with _ | e
  · rcases hh : s.cache.head? with _ | e
    · exact Or.inl (by simp only [hf, hh])
    · exact Or.inr ⟨e.1, by simp only [hf, hh]⟩
  · exact Or.inr ⟨e.1, by simp only [hf]⟩

theorem lookup_put_self (s : LRUCache K V) (key : K) (value : V) (now : Int) :
    lookup (put s key value now).cache key =
      some { value := value, expireAt := s.TTL.map (fun ttl => now + ttl) } := by
  rw [put_cache_eq]
  apply lookup_append_self
  by_cases h : (lookup s.cache key).isSome = true
  · rw [if_pos h]
    exact lookup_eraseKey_self s.cache key
  · have hnone : lookup s.cache key = none := by
      rcases hl : lookup s.cache key with _ | it
      · rfl
      · rw [hl] at h
        simp at h
    rw [if_neg h]
    by_cases hc : s.capacity ≤ s.cache.length
    · rw [if_pos hc]
      rcases evict_cache_cases s now with he | ⟨k, he⟩
      · rw [he]
        exact hnone
      · rw [he]
        exact lookup_none_filter s.cache key _ hnone
    · rw [if_neg hc]
      exact hnone

theorem length_eraseKey_lt (entries : List (K × CacheItem V)) (key : K)
    (h : (lookup entries key).isSome = true) :
    (eraseKey entries key).length < entries.length := by
  induction entries with
  | nil => simp [lookup] at h
  | cons e l ih =>
    by_cases he : (e.1 == key) = true
    · simp only [eraseKey, List.filter_cons, he, Bool.not_true, if_false,
        List.length_cons]
      exact Nat.lt_succ_of_le (List.length_filter_le _ _)
    · simp only [lookup, List.find?, he] at h
      simp only [eraseKey, List.filter_cons, he, Bool.not_false, if_true,
        List.length_cons]
      exact Nat.succ_lt_succ (ih h)

theorem isSome_lookup_of_mem (entries : List (K × CacheItem V))
    (e : K × CacheItem V) (hmem : e ∈ entries) :
    (lookup entries e.1).isSome = true := by
  have hson : (entries.find? (fun x => x.1 == e.1)).isSome = true :=
    List.find?_isSome.mpr ⟨e, hmem, by simp⟩
  unfold lookup
  rcases hfind : entries.find? (fun x => x.1 == e.1) with _ | x
  · rw [hfind] at hson
    simp at hson
  · rw [hfind]
    rfl

theorem length_evict_lt (s : LRUCache K V) (now : Int) (h : s.cache ≠ []) :
    (evictExpiredOrOldest s now).cache.length < s.cache.length := by
  unfold evictExpiredOrOldest
  rcases hf : s.cache.find? (fun e => isExpired e.2 now) with _ | e
  · rcases hh : s.cache.head? with _ | e
    · exact absurd (List.head?_eq_none_iff.mp hh) h
    · have hmem : e ∈ s.cache := List.mem_of_mem_head? (by rw [hh]; rfl)
      simp only [hf, hh]
      exact length_eraseKey_lt s.cache e.1 (isSome_lookup_of_mem s.cache e hmem)
  · have hmem : e ∈ s.cache := List.mem_of_find?_eq_some hf
    simp only [hf]
    exact length_eraseKey_lt s.cache e.1 (isSome_lookup_of_mem s.cache e hmem)

theorem applyCacheOp_capacity (s : LRUCache K V) (op : CacheOp K V) :
    (applyCacheOp s op).capacity = s.capacity := by
  rcases op with ⟨key, now⟩ | ⟨key, value, now⟩
  · show (get s key now).2.capacity = s.capacity
    rcases hl : lookup s.cache key with _ | item
    · rw [get_eq_none s key now hl]
    · rw [get_eq_some s key now item hl]
      by_cases h : isExpired item now = true
      · rw [if_pos h]
      · rw [if_neg h]
  · rfl

theorem applyCacheOp_length (s : LRUCache K V) (op : CacheOp K V)
    (hcap : 1 ≤ s.capacity) (hlen : s.cache.length ≤ s.capacity) :
    (applyCacheOp s op).cache.length ≤ s.capacity := by
  rcases op with ⟨key, now⟩ | ⟨key, value, now⟩
  · show (get s key now).2.cache.length ≤ s.capacity
    rcases hl : lookup s.cache key with _ | item
    · rw [get_eq_none s key now hl]
      exact hlen
    · have hsome : (lookup s.cache key).isSome = true := by rw [hl]; rfl
      have hlt := length_eraseKey_lt s.cache key hsome
      rw [get_eq_some s key now item hl]
      by_cases h : isExpired item now = true
      · rw [if_pos h]
        exact le_trans (le_of_lt hlt) hlen
      · rw [if_neg h]
        simp only [List.length_append, List.length_cons, List.length_nil]
        omega
  · show (put s key value now).cache.length ≤ s.capacity
    rw [put_cache_eq]
    rw [List.length_append]
    simp only [List.length_cons, List.length_nil]
    by_cases h1 : (lookup s.cache key).isSome = true
    · rw [if_pos h1]
      have := length_eraseKey_lt s.cache key h1
      omega
    · rw [if_neg h1]
      by_cases h2 : s.capacity ≤ s.cache.length
      · rw [if_pos h2]
        have hne : s.cache ≠ [] := by
          rw [← List.length_pos]
          omega
        have := length_evict_lt s now hne
        omega
      · rw [if_neg h2]
        omega

theorem runCacheOps_inv (ops : List (CacheOp K V)) :
    ∀ s : LRUCache K V, 1 ≤ s.capacity → s.cache.length ≤ s.capacity →
      (runCacheOps s ops).capacity = s.capacity ∧
      (runCacheOps s ops).cache.length ≤ s.capacity := by
  induction ops with
  | nil => exact fun s _ h => ⟨rfl, h⟩
  | cons op ops ih =>
    intro s hcap hlen
    have hc := applyCacheOp_capacity s op
    have hl := applyCacheOp_length s op hcap hlen
    have hrec := ih (applyCacheOp s op) (by omega) (by omega)
    unfold runCacheOps at hrec ⊢
    simp only [List.foldl_cons]
    exact ⟨by omega, by omega⟩

end LRUCache

/-- C7 counterexample: with TTL = 0 the entry written at time 5 is already
expired at time 7 (indeed at any instant), so `get` misses instead of
returning the stored value as the claim asserts. -/
theorem lru_zero_ttl_cex :
    (LRUCache.get (LRUCache.put (emptyLRU Nat Nat 1 (some 0)) 0 42 5) 0 7).1 = none ∧
    (LRUCache.get (LRUCache.put (emptyLRU Nat Nat 1 (some 0)) 0 42 5) 0 7).1 ≠ some 42 := by
  constructor
  · rfl
  · decide

/-- C7 (amended): in the in-memory LRU cache a TTL of `null` means entries
never expire — every key written by `put` under TTL = `null` is returned by a
subsequent `get` at any time — while a TTL of zero makes every entry expire
immediately: after a `put` under TTL = 0, a `get` at any instant not earlier
than the write returns nothing. -/
theorem lru_ttl_null_never_expires :
    (∀ (K V : Type) [DecidableEq K] (s : LRUCache K V) (k : K) (v : V)
       (now now' : Int), s.TTL = none →
       (LRUCache.get (LRUCache.put s k v now) k now').1 = some v) ∧
    (∀ (K V : Type) [DecidableEq K] (s : LRUCache K V) (k : K) (v : V)
       (now now' : Int), s.TTL = some 0 → now ≤ now' →
       (LRUCache.get (LRUCache.put s k v now) k now').1 = none) := by
  constructor
  · intro K V instK s k v now now' h
    have hput := LRUCache.lookup_put_self s k v now
    rw [h] at hput
    have hexp : LRUCache.isExpired
        { value := v, expireAt := Option.map (fun ttl => now + ttl) none } now' = false := rfl
    rw [LRUCache.get_eq_some (LRUCache.put s k v now) k now' _ hput]
    rw [if_neg (by rw [hexp]; simp)]
  · intro K V instK s k v now now' h hle
    have hput := LRUCache.lookup_put_self s k v now
    rw [h] at hput
    have hexp : LRUCache.isExpired
        { value := v, expireAt := Option.map (fun ttl => now + ttl) (some 0) } now' = true := by
      show decide (now + 0 ≤ now') = true
      simp only [decide_eq_true_iff]
      omega
    rw [LRUCache.get_eq_some (LRUCache.put s k v now) k now' _ hput]
    rw [if_pos (by rw [hexp])]

/-- Witness for C7: the amended theorem applied at a concrete cache, once with
TTL `null` and once with TTL 0. -/
theorem lru_ttl_null_never_expires_witness :
    (LRUCache.get (LRUCache.put (emptyLRU Nat Nat 2 none) 3 9 5) 3 100).1 = some 9 ∧
    (LRUCache.get (LRUCache.put (emptyLRU Nat Nat 2 (some 0)) 3 9 5) 3 6).1 = none :=
  ⟨lru_ttl_null_never_expires.1 Nat Nat (emptyLRU Nat Nat 2 none) 3 9 5 100 rfl,
   lru_ttl_null_never_expires.2 Nat Nat (emptyLRU Nat Nat 2 (some 0)) 3 9 5 6 rfl
     (by decide)⟩

/-- C10: an in-memory LRU cache created with capacity `C > 0` never holds more
than `C` entries, whatever sequence of `get` and `put` operations runs
against it (a `put` on a full cache evicts an entry — the first expired one,
else the oldest — before inserting). -/
theorem lru_capacity_bound (K V : Type) [DecidableEq K] (C : Nat) (hC : 1 ≤ C)
    (ttl : Option Int) (ops : List (CacheOp K V)) :
    (runCacheOps (emptyLRU K V C ttl) ops).cache.length ≤ C :=
  (LRUCache.runCacheOps_inv ops (emptyLRU K V C ttl) hC (by simp [emptyLRU])).2

/-! ### Scheduler order lemmas -/

theorem keyLE_refl (a : TripInfo) : keyLE a a :=
  Or.inr ⟨rfl, le_refl _⟩

theorem keyLE_trans {a b c : TripInfo} (h1 : keyLE a b) (h2 : keyLE b c) :
    keyLE a c := by
  rcases h1 with h1 | ⟨h1, h1'⟩ <;> rcases h2 with h2 | ⟨h2, h2'⟩
  · exact Or.inl (lt_trans h1 h2)
  · exact Or.inl (h2 ▸ h1)
  · exact Or.inl (h1 ▸ h2)
  · exact Or.inr ⟨h1.trans h2, le_trans h1' h2'⟩

theorem keyLE_of_key_eq_right {a t t' : TripInfo} (h : keyLE a t)
    (h1 : t'.pickupTime = t.pickupTime) (h2 : t'.assistance = t.assistance) :
    keyLE a t' := by
  unfold keyLE
  rw [h1, h2]
  exact h

theorem keyLE_of_key_eq_left {t u t' : TripInfo} (h : keyLE t u)
    (h1 : t'.pickupTime = t.pickupTime) (h2 : t'.assistance = t.assistance) :
    keyLE t' u := by
  unfold keyLE
  rw [h1, h2]
  exact h

theorem mem_addTripAt {plan : List VehicleInfo} {i : Nat} {t : TripInfo}
    {v' : VehicleInfo} (h : v' ∈ addTripAt plan i t) :
    v' ∈ plan ∨ ∃ v ∈ plan, v' = addTrip v t := by
  induction plan generalizing i with
  | nil => simp [addTripAt] at h
  | cons v rest ih =>
    cases i with
    | zero =>
      simp only [addTripAt] at h
      rcases List.mem_cons.mp h with h | h
      · exact Or.inr ⟨v, List.mem_cons_self v rest, h⟩
      · exact Or.inl (List.mem_cons_of_mem _ h)
    | succ i =>
      simp only [addTripAt] at h
      rcases List.mem_cons.mp h with h | h
      · exact Or.inl (h ▸ List.mem_cons_self v rest)
      · rcases ih h with h' | ⟨w, hw, he⟩
        · exact Or.inl (List.mem_cons_of_mem _ h')
        · exact Or.inr ⟨w, List.mem_cons_of_mem _ hw, he⟩

/-- What `schedule1` can do to the plan: leave a vehicle untouched, append the
(updated) trip to one vehicle, or create a new vehicle holding just the trip.
The stored trip keeps the pickup time and assistance of the input trip, and
its `adjustedPickupTime` is set and at least the booked pickup time. -/
theorem mem_schedule1 (ctx : context) (dir : Directions) (plan : List VehicleInfo)
    (trip : TripInfo) (v' : VehicleInfo) (h : v' ∈ schedule1 ctx dir plan trip) :
    v' ∈ plan ∨
    ∃ t', t'.pickupTime = trip.pickupTime ∧ t'.assistance = trip.assistance ∧
      (∃ a, t'.adjustedPickupTime = some a ∧ trip.pickupTime ≤ a) ∧
      ((∃ v ∈ plan, v' = addTrip v t') ∨ v'.trips = [t']) := by
  unfold schedule1 at h
  rcases hf : findBest ctx dir plan trip with _ | ⟨i, arr⟩
  · simp only [hf] at h
    rcases List.mem_append.mp h with h | h
    · exact Or.inl h
    · have hv : v' = ⟨plan.length + 1,
          [{ trip with
             earliestArrivalTime :=
               some (if trip.isLast then trip.pickupTime
                     else trip.pickupTime + (-1) * ctx.beforePickupInSec),
             adjustedPickupTime := some trip.pickupTime }]⟩ := by
        simpa using h
      refine Or.inr ⟨{ trip with
          earliestArrivalTime :=
            some (if trip.isLast then trip.pickupTime
                  else trip.pickupTime + (-1) * ctx.beforePickupInSec),
          adjustedPickupTime := some trip.pickupTime },
        rfl, rfl, ⟨trip.pickupTime, rfl, le_refl _⟩, Or.inr ?_⟩
      rw [hv]
  · simp only [hf] at h
    rcases mem_addTripAt h with h | ⟨v, hv, he⟩
    · exact Or.inl h
    · refine Or.inr ⟨{ trip with
          earliestArrivalTime := some arr,
          adjustedPickupTime :=
            some (if arr < trip.pickupTime then trip.pickupTime else arr) },
        rfl, rfl,
        ⟨if arr < trip.pickupTime then trip.pickupTime else arr, rfl, ?_⟩,
        Or.inl ⟨v, hv, he⟩⟩
      split_ifs with h'
      · exact le_refl _
      · exact le_of_not_lt h'

theorem schedule1_pairwise (ctx : context) (dir : Directions)
    (plan : List VehicleInfo) (trip : TripInfo)
    (hs : ∀ v ∈ plan, v.trips.Pairwise keyLE)
    (hle : ∀ v ∈ plan, ∀ u ∈ v.trips, keyLE u trip) :
    (∀ v' ∈ schedule1 ctx dir plan trip, v'.trips.Pairwise keyLE) ∧
    (∀ v' ∈ schedule1 ctx dir plan trip, ∀ u ∈ v'.trips,
       keyLE u trip ∨
       (u.pickupTime = trip.pickupTime ∧ u.assistance = trip.assistance)) := by
  constructor
  · intro v' hv'
    rcases mem_schedule1 ctx dir plan trip v' hv' with h | ⟨t', hp, ha, _, h⟩
    · exact hs v' h
    · rcases h with ⟨v, hv, he⟩ | he
      · rw [he]
        unfold addTrip
        simp only [List.pairwise_append]
        refine ⟨hs v hv, List.pairwise_singleton _ _, ?_⟩
        intro a haa b hb
        rw [List.mem_singleton.mp hb]
        exact keyLE_of_key_eq_right (hle v hv a haa) hp ha
      · rw [he]
        exact List.pairwise_singleton _ _
  · intro v' hv' u hu
    rcases mem_schedule1 ctx dir plan trip v' hv' with h | ⟨t', hp, ha, _, h⟩
    · exact Or.inl (hle v' h u hu)
    · rcases h with ⟨v, hv, he⟩ | he
      · rw [he] at hu
        unfold addTrip at hu
        simp only [List.mem_append] at hu
        rcases hu with hu | hu
        · exact Or.inl (hle v hv u hu)
        · rw [List.mem_singleton.mp hu]
          exact Or.inr ⟨hp, ha⟩
      · rw [he] at hu
        rw [List.mem_singleton.mp hu]
        exact Or.inr ⟨hp, ha⟩

theorem scheduleTrips_pairwise (ctx : context) (dir : Directions) :
    ∀ (ts : List TripInfo) (plan : List VehicleInfo),
      (∀ v ∈ plan, v.trips.Pairwise keyLE) →
      (∀ v ∈ plan, ∀ u ∈ v.trips, ∀ w ∈ ts, keyLE u w) →
      ts.Pairwise keyLE →
      ∀ v ∈ scheduleTrips ctx dir plan ts, v.trips.Pairwise keyLE := by
  intro ts
  induction ts with
  | nil => exact fun plan hs _ _ => hs
  | cons t rest ih =>
    intro plan hs hle hts
    have hhead : ∀ w ∈ rest, keyLE t w := (List.pairwise_cons.mp hts).1
    have hs' := (schedule1_pairwise ctx dir plan t hs
      (fun v hv u hu => hle v hv u hu t (List.mem_cons_self t rest))).1
    have hmix := (schedule1_pairwise ctx dir plan t hs
      (fun v hv u hu => hle v hv u hu t (List.mem_cons_self t rest))).2
    have hle' : ∀ v ∈ schedule1 ctx dir plan t, ∀ u ∈ v.trips, ∀ w ∈ rest, keyLE u w := by
      intro v hv u hu w hw
      rcases hmix v hv u hu with h | ⟨hp, ha⟩
      · exact keyLE_trans h (hhead w hw)
      · exact keyLE_of_key_eq_left (hhead w hw) hp ha
    have := ih (schedule1 ctx dir plan t) hs' hle' (List.pairwise_cons.mp hts).2
    unfold scheduleTrips at this ⊢
    simpa [List.foldl_cons] using this

theorem markGo_map_pickup (full : List TripInfo) :
    ∀ l, (markGo full l).map (fun t => t.pickupTime) = l.map (fun t => t.pickupTime) := by
  intro l
  induction l with
  | nil => rfl
  | cons t rest ih =>
    simp only [markGo, List.map_cons]
    split_ifs <;> simp [ih]

theorem markGo_map_assistance (full : List TripInfo) :
    ∀ l, (markGo full l).map (fun t => t.assistance) = l.map (fun t => t.assistance) := by
  intro l
  induction l with
  | nil => rfl
  | cons t rest ih =>
    simp only [markGo, List.map_cons]
    split_ifs <;> simp [ih]

theorem pairwise_pickup_of_map_eq {l m : List TripInfo}
    (hmap : m.map (fun t => t.pickupTime) = l.map (fun t => t.pickupTime))
    (h : l.Pairwise (fun a b => a.pickupTime ≤ b.pickupTime)) :
    m.Pairwise (fun a b => a.pickupTime ≤ b.pickupTime) := by
  have h1 : (l.map (fun t => t.pickupTime)).Pairwise (fun a b : Int => a ≤ b) :=
    List.pairwise_map.mpr h
  rw [← hmap] at h1
  exact List.pairwise_map.mp h1

theorem sortByPickup_pairwise (ts : List TripInfo) :
    (sortByPickup ts).Pairwise (fun a b => a.pickupTime ≤ b.pickupTime) := by
  unfold sortByPickup
  haveI : IsTotal TripInfo (fun a b => a.pickupTime ≤ b.pickupTime) :=
    ⟨fun a b => le_total a.pickupTime b.pickupTime⟩
  haveI : IsTrans TripInfo (fun a b => a.pickupTime ≤ b.pickupTime) :=
    ⟨fun _ _ _ h1 h2 => le_trans h1 h2⟩
  exact List.sorted_insertionSort _ ts

theorem markLastLeg_pairwise_pickup (ts : List TripInfo) :
    (markLastLeg ts).Pairwise (fun a b => a.pickupTime ≤ b.pickupTime) := by
  unfold markLastLeg
  exact pairwise_pickup_of_map_eq (markGo_map_pickup _ _) (sortByPickup_pairwise ts)

theorem priority_of_mem_bucket {m : List TripInfo} {i : Nat} {t : TripInfo}
    (h : t ∈ m.filter (fun t => priorityMa t.assistance == i)) :
    priorityMa t.assistance = i := by
  have := List.of_mem_filter h
  simpa using this

theorem bucket_pairwise_keyLE {m : List TripInfo}
    (hm : m.Pairwise (fun a b => a.pickupTime ≤ b.pickupTime)) (i : Nat) :
    (m.filter (fun t => priorityMa t.assistance == i)).Pairwise keyLE := by
  have h1 := hm.filter (fun t => priorityMa t.assistance == i)
  apply h1.imp_of_mem
  intro a b ha hb hab
  exact Or.inr ⟨by rw [priority_of_mem_bucket ha, priority_of_mem_bucket hb], hab⟩

theorem buckets_pairwise (ts : List TripInfo) :
    ((markLastLeg ts).filter (fun t => priorityMa t.assistance == 0) ++
     ((markLastLeg ts).filter (fun t => priorityMa t.assistance == 1) ++
      (markLastLeg ts).filter (fun t => priorityMa t.assistance == 2))).Pairwise keyLE := by
  have hp := markLastLeg_pairwise_pickup ts
  rw [List.pairwise_append]
  refine ⟨bucket_pairwise_keyLE hp 0, ?_, ?_⟩
  · rw [List.pairwise_append]
    refine ⟨bucket_pairwise_keyLE hp 1, bucket_pairwise_keyLE hp 2, ?_⟩
    intro a ha b hb
    refine Or.inl ?_
    rw [priority_of_mem_bucket ha, priority_of_mem_bucket hb]
    omega
  · intro a ha b hb
    refine Or.inl ?_
    rcases List.mem_append.mp hb with hb | hb
    · rw [priority_of_mem_bucket ha, priority_of_mem_bucket hb]
      omega
    · rw [priority_of_mem_bucket ha, priority_of_mem_bucket hb]
      omega

/-- `DoSchedule` folds the three buckets in order, which is the same as one
`scheduleTrips` run over their concatenation. -/
theorem doSchedule_eq_concat (ctx : context) (dir : Directions) (trips : List TripInfo) :
    DoSchedule ctx dir trips =
      scheduleTrips ctx dir []
        ((markLastLeg trips).filter (fun t => priorityMa t.assistance == 0) ++
         ((markLastLeg trips).filter (fun t => priorityMa t.assistance == 1) ++
          (markLastLeg trips).filter (fun t => priorityMa t.assistance == 2))) := by
  unfold DoSchedule getPriorityTrips
  simp only [List.foldl_cons, List.foldl_nil]
  unfold scheduleTrips
  rw [List.foldl_append, List.foldl_append]

/-- C3 counterexample: with `afterPickup = 3600` and no reposition routes, a
stretcher trip booked at 36000 s is scheduled first (priority bucket 0) onto
vehicle 1; the ambulatory last-leg trip of passenger p2 booked at 34200 s
still fits behind it (same address, within the last-leg tolerance) while the
vehicle created for p2's 28800 s outgoing trip finishes too late, so vehicle 1
ends up with pickup times 36000 followed by 34200 — not non-decreasing. -/
theorem vehicle_pickup_order_cex :
    ¬ (∀ v ∈ DoSchedule ⟨0, 3600, 0⟩ (fun _ _ _ => none)
          [⟨"A", "B", "p1", 16, 36000, 0, 0, false, none, none⟩,
           ⟨"C", "D", "p2", 1, 28800, 0, 9660, false, none, none⟩,
           ⟨"B", "E", "p2", 1, 34200, 0, 0, false, none, none⟩],
        v.trips.Pairwise (fun a b => a.pickupTime ≤ b.pickupTime)) := by
  decide

/-- C3 (amended): in every plan produced by the scheduler, every vehicle's
assigned trips are in non-decreasing order of the pair (mobility priority,
pickupTime) ordered lexicographically — within one priority bucket pickup
times are non-decreasing, but a later bucket's trip appended to an
earlier-bucket vehicle may have a smaller pickup time. -/
theorem vehicle_priority_pickup_sorted (ctx : context) (dir : Directions)
    (trips : List TripInfo) :
    ∀ v ∈ DoSchedule ctx dir trips, v.trips.Pairwise keyLE := by
  rw [doSchedule_eq_concat]
  exact scheduleTrips_pairwise ctx dir _ []
    (by intro v hv; cases hv)
    (by intro v hv; cases hv)
    (buckets_pairwise trips)

/-- Witness for C3: the first vehicle of a concrete one-trip schedule. -/
theorem vehicle_priority_pickup_sorted_witness :
    ((DoSchedule ⟨300, 600, 120⟩ (fun _ _ _ => none)
        [⟨"A", "B", "p", 1, 100, 5, 10, false, none, none⟩]).headD
      ⟨0, []⟩).trips.Pairwise keyLE := by
  apply vehicle_priority_pickup_sorted ⟨300, 600, 120⟩ (fun _ _ _ => none)
    [⟨"A", "B", "p", 1, 100, 5, 10, false, none, none⟩]
  decide

/-! ### Last-leg marking lemmas -/

theorem markGo_elem (full : List TripInfo) :
    ∀ (l : List TripInfo) (u : TripInfo), u ∈ markGo full l →
      ∃ w ∈ l, u.passenger = w.passenger ∧ u.pickupTime = w.pickupTime := by
  intro l
  induction l with
  | nil =>
    intro u hu
    simp [markGo] at hu
  | cons t rest ih =>
    intro u hu
    simp only [markGo] at hu
    rcases List.mem_cons.mp hu with hu | hu
    · refine ⟨t, List.mem_cons_self _ _, ?_⟩
      split_ifs at hu
      · rw [hu]
        exact ⟨rfl, rfl⟩
      · rw [hu]
        exact ⟨rfl, rfl⟩
    · rcases ih u hu with ⟨w, hw, h1, h2⟩
      exact ⟨w, List.mem_cons_of_mem _ hw, h1, h2⟩

theorem markGo_count (full : List TripInfo) (p : String) :
    ∀ l, (∀ t ∈ l, t.isLast = false) →
      (markGo full l).countP (fun t => t.passenger == p && t.isLast) =
        if 2 ≤ full.countP (fun t => t.passenger == p) ∧
           1 ≤ l.countP (fun t => t.passenger == p) then 1 else 0 := by
  intro l
  induction l with
  | nil =>
    intro _
    simp [markGo]
  | cons t rest ih =>
    intro hfalse
    have hfr : ∀ u ∈ rest, u.isLast = false :=
      fun u hu => hfalse u (List.mem_cons_of_mem _ hu)
    have hft : t.isLast = false := hfalse t (List.mem_cons_self _ _)
    simp only [markGo]
    by_cases hp : (t.passenger == p) = true
    · have hpe : t.passenger = p := by simpa using hp
      have hrhs : (t :: rest).countP (fun u => u.passenger == p) =
          rest.countP (fun u => u.passenger == p) + 1 := by
        rw [List.countP_cons]
        simp [hp]
      by_cases hrest : 1 ≤ rest.countP (fun u => u.passenger == p)
      · have hnomark : ¬(2 ≤ full.countP (fun u => u.passenger == t.passenger) ∧
            rest.all (fun u => !(u.passenger == t.passenger)) = true) := by
          rintro ⟨_, hall⟩
          rw [List.all_eq_true] at hall
          have hpos : 0 < rest.countP (fun u => u.passenger == p) := by omega
          rcases List.countP_pos_iff.mp hpos with ⟨a, ha, hap⟩
          have hx := hall a ha
          rw [hpe] at hx
          rw [hap] at hx
          simp at hx
        rw [if_neg hnomark, List.countP_cons, ih hfr, hrhs]
        have hcontrib : (if (t.passenger == p && t.isLast) = true then 1 else 0) = 0 := by
          rw [hft]
          simp
        rw [hcontrib]
        by_cases h2 : 2 ≤ full.countP (fun u => u.passenger == p)
        · rw [if_pos ⟨h2, hrest⟩, if_pos ⟨h2, by omega⟩]
        · rw [if_neg (fun hx => h2 hx.1), if_neg (fun hx => h2 hx.1)]
      · have hr0 : rest.countP (fun u => u.passenger == p) = 0 := by omega
        have hall : rest.all (fun u => !(u.passenger == t.passenger)) = true := by
          rw [List.all_eq_true]
          intro x hx
          have hx0 := List.countP_eq_zero.mp hr0 x hx
          rw [hpe]
          simpa using hx0
        by_cases h2 : 2 ≤ full.countP (fun u => u.passenger == t.passenger)
        · rw [if_pos ⟨h2, hall⟩, List.countP_cons, ih hfr, hrhs]
          have hcontrib : (if (({ t with isLast := true } : TripInfo).passenger == p &&
              ({ t with isLast := true } : TripInfo).isLast) = true then 1 else 0) = 1 := by
            simp [hp]
          rw [hcontrib]
          simp only [hpe] at h2
          rw [if_neg (by rintro ⟨_, hx⟩; omega), if_pos ⟨h2, by omega⟩]
        · rw [if_neg (fun hx => h2 hx.1), List.countP_cons, ih hfr, hrhs]
          have hcontrib : (if (t.passenger == p && t.isLast) = true then 1 else 0) = 0 := by
            rw [hft]
            simp
          rw [hcontrib]
          simp only [hpe] at h2
          rw [if_neg (by rintro ⟨_, hx⟩; omega), if_neg (fun hx => h2 hx.1)]
    · have hpf : (t.passenger == p) = false := by
        rcases hb : t.passenger == p with _ | _
        · rfl
        · exact absurd hb hp
      rw [List.countP_cons, ih hfr]
      have hhead : ((if 2 ≤ full.countP (fun u => u.passenger == t.passenger) ∧
              rest.all (fun u => !(u.passenger == t.passenger)) = true
           then { t with isLast := true } else t).passenger == p &&
          (if 2 ≤ full.countP (fun u => u.passenger == t.passenger) ∧
              rest.all (fun u => !(u.passenger == t.passenger)) = true
           then { t with isLast := true } else t).isLast) = false := by
        split_ifs
        · simp [hpf]
        · simp [hpf]
      rw [hhead]
      have hcount : (t :: rest).countP (fun u => u.passenger == p) =
          rest.countP (fun u => u.passenger == p) := by
        rw [List.countP_cons]
        simp [hpf]
      rw [hcount]
      simp

theorem markGo_largest (full : List TripInfo) :
    ∀ l, (∀ t ∈ l, t.isLast = false) →
      l.Pairwise (fun a b => a.pickupTime ≤ b.pickupTime) →
      ∀ t' ∈ markGo full l, t'.isLast = true →
        ∀ u ∈ markGo full l, u.passenger = t'.passenger →
          u.pickupTime ≤ t'.pickupTime := by
  intro l
  induction l with
  | nil =>
    intro _ _ t' ht'
    simp [markGo] at ht'
  | cons t rest ih =>
    intro hfalse hsort t' ht' hlast u hu hup
    have hfr : ∀ x ∈ rest, x.isLast = false :=
      fun x hx => hfalse x (List.mem_cons_of_mem _ hx)
    have hft : t.isLast = false := hfalse t (List.mem_cons_self _ _)
    have hhead := (List.pairwise_cons.mp hsort).1
    have hsr := (List.pairwise_cons.mp hsort).2
    simp only [markGo] at ht' hu
    by_cases hc : (2 ≤ full.countP (fun x => x.passenger == t.passenger) ∧
        rest.all (fun x => !(x.passenger == t.passenger)) = true)
    · rw [if_pos hc] at ht' hu
      rcases List.mem_cons.mp ht' with ht' | ht'
      · rcases List.mem_cons.mp hu with hu | hu
        · rw [hu, ht']
        · rcases markGo_elem full rest u hu with ⟨w, hw, hwp, _⟩
          have hx := (List.all_eq_true.mp hc.2) w hw
          rw [ht'] at hup
          have hwt : w.passenger = t.passenger := by
            rw [← hwp, hup]
          rw [hwt] at hx
          simp at hx
      · rcases List.mem_cons.mp hu with hu | hu
        · rcases markGo_elem full rest t' ht' with ⟨w, hw, _, hwk⟩
          rw [hu, hwk]
          exact hhead w hw
        · exact ih hfr hsr t' ht' hlast u hu hup
    · rw [if_neg hc] at ht' hu
      rcases List.mem_cons.mp ht' with ht' | ht'
      · rw [ht'] at hlast
        rw [hft] at hlast
        simp at hlast
      · rcases List.mem_cons.mp hu with hu | hu
        · rcases markGo_elem full rest t' ht' with ⟨w, hw, _, hwk⟩
          rw [hu, hwk]
          exact hhead w hw
        · exact ih hfr hsr t' ht' hlast u hu hup

theorem markGo_marked_multi (full : List TripInfo) :
    ∀ l, (∀ t ∈ l, t.isLast = false) →
      ∀ t' ∈ markGo full l, t'.isLast = true →
        2 ≤ full.countP (fun u => u.passenger == t'.passenger) := by
  intro l
  induction l with
  | nil =>
    intro _ t' ht'
    simp [markGo] at ht'
  | cons t rest ih =>
    intro hfalse t' ht' hlast
    have hfr : ∀ x ∈ rest, x.isLast = false :=
      fun x hx => hfalse x (List.mem_cons_of_mem _ hx)
    have hft : t.isLast = false := hfalse t (List.mem_cons_self _ _)
    simp only [markGo] at ht'
    by_cases hc : (2 ≤ full.countP (fun x => x.passenger == t.passenger) ∧
        rest.all (fun x => !(x.passenger == t.passenger)) = true)
    · rw [if_pos hc] at ht'
      rcases List.mem_cons.mp ht' with ht' | ht'
      · have hpe : t'.passenger = t.passenger := by rw [ht']
        rw [hpe]
        exact hc.1
      · exact ih hfr t' ht' hlast
    · rw [if_neg hc] at ht'
      rcases List.mem_cons.mp ht' with ht' | ht'
      · rw [ht'] at hlast
        rw [hft] at hlast
        simp at hlast
      · exact ih hfr t' ht' hlast

/-- C4: after last-leg marking, for every passenger with at least two trips in
the day exactly one of their trips is marked `isLast = true`, and it is one
with the largest `pickupTime`; every trip of a passenger with a single trip
keeps `isLast = false`.  The hypothesis records that trips come out of
construction with `isLast = false`. -/
theorem markLastLeg_spec (ts : List TripInfo)
    (hfalse : ∀ t ∈ ts, t.isLast = false) (p : String) :
    (2 ≤ ts.countP (fun t => t.passenger == p) →
       (markLastLeg ts).countP (fun t => t.passenger == p && t.isLast) = 1 ∧
       (∀ t' ∈ markLastLeg ts, t'.passenger = p → t'.isLast = true →
          ∀ u ∈ markLastLeg ts, u.passenger = p → u.pickupTime ≤ t'.pickupTime)) ∧
    (ts.countP (fun t => t.passenger == p) ≤ 1 →
       ∀ t' ∈ markLastLeg ts, t'.passenger = p → t'.isLast = false) := by
  have hperm : (sortByPickup ts).Perm ts := List.perm_insertionSort _ ts
  have hcount : (sortByPickup ts).countP (fun t => t.passenger == p) =
      ts.countP (fun t => t.passenger == p) := hperm.countP_eq _
  have hfs : ∀ t ∈ sortByPickup ts, t.isLast = false :=
    fun t ht => hfalse t (hperm.mem_iff.mp ht)
  constructor
  · intro h2
    constructor
    · unfold markLastLeg
      rw [markGo_count (sortByPickup ts) p (sortByPickup ts) hfs]
      rw [if_pos ⟨by rw [hcount]; exact h2, by rw [hcount]; omega⟩]
    · unfold markLastLeg
      intro t' ht' hp' hl' u hu hup
      exact markGo_largest (sortByPickup ts) (sortByPickup ts) hfs
        (sortByPickup_pairwise ts) t' ht' hl' u hu (by rw [hup, hp'])
  · intro h1 t' ht' hp'
    unfold markLastLeg at ht'
    rcases hl : t'.isLast with _ | _
    · rfl
    · have h2 := markGo_marked_multi (sortByPickup ts) (sortByPickup ts) hfs t' ht' hl
      simp only [hp'] at h2
      rw [hcount] at h2
      omega

/-- Witness for C4: two trips of passenger p (08:00 and 10:00) and a single
trip of passenger q. -/
theorem markLastLeg_spec_witness :
    (2 ≤ ([⟨"A", "B", "p", 1, 36000, 0, 0, false, none, none⟩,
           ⟨"C", "D", "p", 1, 28800, 0, 0, false, none, none⟩,
           ⟨"E", "F", "q", 1, 30000, 0, 0, false, none, none⟩] :
        List TripInfo).countP (fun t => t.passenger == "p") →
       (markLastLeg [⟨"A", "B", "p", 1, 36000, 0, 0, false, none, none⟩,
           ⟨"C", "D", "p", 1, 28800, 0, 0, false, none, none⟩,
           ⟨"E", "F", "q", 1, 30000, 0, 0, false, none, none⟩]).countP
         (fun t => t.passenger == "p" && t.isLast) = 1 ∧
       (∀ t' ∈ markLastLeg [⟨"A", "B", "p", 1, 36000, 0, 0, false, none, none⟩,
           ⟨"C", "D", "p", 1, 28800, 0, 0, false, none, none⟩,
           ⟨"E", "F", "q", 1, 30000, 0, 0, false, none, none⟩],
          t'.passenger = "p" → t'.isLast = true →
          ∀ u ∈ markLastLeg [⟨"A", "B", "p", 1, 36000, 0, 0, false, none, none⟩,
             ⟨"C", "D", "p", 1, 28800, 0, 0, false, none, none⟩,
             ⟨"E", "F", "q", 1, 30000, 0, 0, false, none, none⟩],
            u.passenger = "p" → u.pickupTime ≤ t'.pickupTime)) ∧
    (([⟨"A", "B", "p", 1, 36000, 0, 0, false, none, none⟩,
       ⟨"C", "D", "p", 1, 28800, 0, 0, false, none, none⟩,
       ⟨"E", "F", "q", 1, 30000, 0, 0, false, none, none⟩] :
        List TripInfo).countP (fun t => t.passenger == "p") ≤ 1 →
       ∀ t' ∈ markLastLeg [⟨"A", "B", "p", 1, 36000, 0, 0, false, none, none⟩,
           ⟨"C", "D", "p", 1, 28800, 0, 0, false, none, none⟩,
           ⟨"E", "F", "q", 1, 30000, 0, 0, false, none, none⟩],
         t'.passenger = "p" → t'.isLast = false) :=
  markLastLeg_spec
    [⟨"A", "B", "p", 1, 36000, 0, 0, false, none, none⟩,
     ⟨"C", "D", "p", 1, 28800, 0, 0, false, none, none⟩,
     ⟨"E", "F", "q", 1, 30000, 0, 0, false, none, none⟩]
    (by decide) "p"

/-! ### Adjusted pickup time lemmas -/

theorem scheduleTrips_adjusted (ctx : context) (dir : Directions) :
    ∀ (ts : List TripInfo) (plan : List VehicleInfo),
      (∀ v ∈ plan, ∀ t ∈ v.trips,
        ∃ a, t.adjustedPickupTime = some a ∧ t.pickupTime ≤ a) →
      ∀ v ∈ scheduleTrips ctx dir plan ts, ∀ t ∈ v.trips,
        ∃ a, t.adjustedPickupTime = some a ∧ t.pickupTime ≤ a := by
  intro ts
  induction ts with
  | nil => exact fun plan h => h
  | cons t rest ih =>
    intro plan hinv
    have hinv' : ∀ v ∈ schedule1 ctx dir plan t, ∀ u ∈ v.trips,
        ∃ a, u.adjustedPickupTime = some a ∧ u.pickupTime ≤ a := by
      intro v hv u hu
      rcases mem_schedule1 ctx dir plan t v hv with h | ⟨t', hp, _, ⟨a, haa, hle⟩, h⟩
      · exact hinv v h u hu
      · rcases h with ⟨w, hw, he⟩ | he
        · rw [he] at hu
          unfold addTrip at hu
          simp only [List.mem_append] at hu
          rcases hu with hu | hu
          · exact hinv w hw u hu
          · rw [List.mem_singleton.mp hu]
            exact ⟨a, haa, by rw [hp]; exact hle⟩
        · rw [he] at hu
          rw [List.mem_singleton.mp hu]
          exact ⟨a, haa, by rw [hp]; exact hle⟩
    have hrec := ih (schedule1 ctx dir plan t) hinv'
    unfold scheduleTrips at hrec ⊢
    simpa [List.foldl_cons] using hrec

/-- C5: when a best arrival exists, the assignment step stores the trip with
`adjustedPickupTime = max(bestArrival, pickupTime)`; when none exists (new
vehicle), it stores `adjustedPickupTime = pickupTime`; consequently every
trip in every plan produced by the scheduler has an `adjustedPickupTime` that
is never earlier than the booking's `pickupTime`. -/
theorem adjustedPickupTime_spec :
    (∀ (ctx : context) (dir : Directions) (plan : List VehicleInfo)
       (trip : TripInfo) (i : Nat) (arr : Int),
       findBest ctx dir plan trip = some (i, arr) →
       schedule1 ctx dir plan trip =
         addTripAt plan i { trip with
           earliestArrivalTime := some arr,
           adjustedPickupTime := some (max arr trip.pickupTime) }) ∧
    (∀ (ctx : context) (dir : Directions) (plan : List VehicleInfo)
       (trip : TripInfo),
       findBest ctx dir plan trip = none →
       schedule1 ctx dir plan trip =
         plan ++ [{ idx := plan.length + 1,
                    trips := [{ trip with
                      earliestArrivalTime :=
                        some (if trip.isLast then trip.pickupTime
                              else trip.pickupTime + (-1) * ctx.beforePickupInSec),
                      adjustedPickupTime := some trip.pickupTime }] }]) ∧
    (∀ (ctx : context) (dir : Directions) (trips : List TripInfo),
       ∀ v ∈ DoSchedule ctx dir trips, ∀ t ∈ v.trips,
         ∃ a, t.adjustedPickupTime = some a ∧ t.pickupTime ≤ a) := by
  refine ⟨?_, ?_, ?_⟩
  · intro ctx dir plan trip i arr hf
    have hmax : (if arr < trip.pickupTime then trip.pickupTime else arr) =
        max arr trip.pickupTime := by
      rcases le_or_lt trip.pickupTime arr with h | h
      · rw [if_neg (not_lt.mpr h), max_eq_left h]
      · rw [if_pos h, max_eq_right (le_of_lt h)]
    unfold schedule1
    rw [hf]
    show addTripAt plan i { trip with
        earliestArrivalTime := some arr,
        adjustedPickupTime :=
          some (if arr < trip.pickupTime then trip.pickupTime else arr) } =
      addTripAt plan i { trip with
        earliestArrivalTime := some arr,
        adjustedPickupTime := some (max arr trip.pickupTime) }
    rw [hmax]
  · intro ctx dir plan trip hf
    unfold schedule1
    rw [hf]
  · intro ctx dir trips
    rw [doSchedule_eq_concat]
    exact scheduleTrips_adjusted ctx dir _ [] (by intro v hv; cases hv)

/-- Witness for C5: the some-branch equation at a concrete plan whose single
vehicle's last trip drops off at the next trip's pickup address. -/
theorem adjustedPickupTime_spec_witness :
    schedule1 ⟨300, 600, 120⟩ (fun _ _ _ => none)
        [⟨1, [⟨"A", "B", "p", 1, 100, 5, 10, false, none, none⟩]⟩]
        ⟨"B", "C", "q", 1, 500, 5, 10, false, none, none⟩ =
      addTripAt [⟨1, [⟨"A", "B", "p", 1, 100, 5, 10, false, none, none⟩]⟩] 0
        { (⟨"B", "C", "q", 1, 500, 5, 10, false, none, none⟩ : TripInfo) with
          earliestArrivalTime := some 230,
          adjustedPickupTime := some (max 230 500) } :=
  adjustedPickupTime_spec.1 ⟨300, 600, 120⟩ (fun _ _ _ => none)
    [⟨1, [⟨"A", "B", "p", 1, 100, 5, 10, false, none, none⟩]⟩]
    ⟨"B", "C", "q", 1, 500, 5, 10, false, none, none⟩ 0 230 (by decide)


/-! ### Task pipeline lemmas -/

theorem serializedFrom_append (es : List TaskEvent) (e : TaskEvent) :
    ∀ s : TaskStore, serializedFrom s (es ++ [e]) = true →
      serializedFrom s es = true ∧ claimReadyB (es.foldl taskStep s) e = true := by
  induction es with
  | nil =>
    intro s h
    simp only [List.nil_append, serializedFrom, Bool.and_eq_true] at h
    exact ⟨rfl, h.1⟩
  | cons e0 es ih =>
    intro s h
    simp only [List.cons_append, serializedFrom, Bool.and_eq_true] at h
    rcases h with ⟨h0, h1⟩
    rcases ih (taskStep s e0) h1 with ⟨h2, h3⟩
    constructor
    · simp only [serializedFrom, Bool.and_eq_true]
      exact ⟨h0, h2⟩
    · simpa [List.foldl_cons] using h3

theorem claimReady_pending (s : TaskStore) (k : Nat) (ids : List Nat)
    (hk : s.pendingClaims[k]? = some ids)
    (h : claimReadyB s (TaskEvent.markProcessing k) = true) :
    ∀ i ∈ ids, s.status i = some TaskStatus.pending := by
  simp only [claimReadyB] at h
  rw [hk] at h
  intro i hi
  have hx := List.all_eq_true.mp h i hi
  simpa using hx

theorem invStore_init : InvStore initStore :=
  ⟨List.nodup_nil, fun id h => absurd h (List.not_mem_nil id),
   fun ids h => absurd h (List.not_mem_nil ids)⟩

theorem invStore_step (s : TaskStore) (e : TaskEvent) (hinv : InvStore s)
    (hready : claimReadyB s e = true) : InvStore (taskStep s e) := by
  obtain ⟨hnd, hst, hpc⟩ := hinv
  cases e with
  | create id =>
    simp only [taskStep]
    by_cases hc : s.status id = none
    · rw [if_pos hc]
      refine ⟨hnd, ?_, hpc⟩
      intro j hj
      have hj' := hst j hj
      show (if j = id then some TaskStatus.pending else s.status j) =
        some TaskStatus.processing
      by_cases hji : j = id
      · rw [hji] at hj'
        rw [hc] at hj'
        exact absurd hj' (by simp)
      · rw [if_neg hji]
        exact hj'
    · rw [if_neg hc]
      exact ⟨hnd, hst, hpc⟩
  | findPending ids =>
    simp only [taskStep]
    by_cases hc : ids.Nodup ∧ ∀ i ∈ ids, s.status i = some TaskStatus.pending
    · rw [if_pos hc]
      refine ⟨hnd, hst, ?_⟩
      intro l hl
      rcases List.mem_append.mp hl with hl | hl
      · exact hpc l hl
      · rw [List.mem_singleton.mp hl]
        exact hc.1
    · rw [if_neg hc]
      exact ⟨hnd, hst, hpc⟩
  | markProcessing k =>
    simp only [taskStep]
    rcases hk : s.pendingClaims[k]? with _ | ids
    · simp only [hk]
      exact ⟨hnd, hst, hpc⟩
    · simp only [hk]
      have hidsnd : ids.Nodup := hpc ids (List.getElem?_mem hk)
      have hidsp := claimReady_pending s k ids hk hready
      refine ⟨?_, ?_, ?_⟩
      · rw [List.nodup_append]
        refine ⟨hnd, hidsnd, ?_⟩
        intro a ha hb
        have h1 := hst a ha
        have h2 := hidsp a hb
        rw [h1] at h2
        simp at h2
      · intro j hj
        show (if j ∈ ids then some TaskStatus.processing else s.status j) =
          some TaskStatus.processing
        by_cases hji : j ∈ ids
        · rw [if_pos hji]
        · rw [if_neg hji]
          rcases List.mem_append.mp hj with hj | hj
          · exact hst j hj
          · exact absurd hj hji
      · intro l hl
        exact hpc l (List.Sublist.mem hl (List.eraseIdx_sublist _ k))
  | workerComplete id =>
    simp only [taskStep]
    by_cases hc : id ∈ s.dispatched
    · rw [if_pos hc]
      refine ⟨hnd.erase id, ?_, hpc⟩
      intro j hj
      have hj' : j ∈ s.dispatched := List.mem_of_mem_erase hj
      have hne : j ≠ id := by
        intro hji
        rw [hji] at hj
        exact hnd.not_mem_erase hj
      show (if j = id then some TaskStatus.completed else s.status j) =
        some TaskStatus.processing
      rw [if_neg hne]
      exact hst j hj'
    · rw [if_neg hc]
      exact ⟨hnd, hst, hpc⟩
  | workerFail id =>
    simp only [taskStep]
    by_cases hc : id ∈ s.dispatched
    · rw [if_pos hc]
      refine ⟨hnd.erase id, ?_, hpc⟩
      intro j hj
      have hj' : j ∈ s.dispatched := List.mem_of_mem_erase hj
      have hne : j ≠ id := by
        intro hji
        rw [hji] at hj
        exact hnd.not_mem_erase hj
      show (if j = id then some TaskStatus.failed else s.status j) =
        some TaskStatus.processing
      rw [if_neg hne]
      exact hst j hj'
    · rw [if_neg hc]
      exact ⟨hnd, hst, hpc⟩

theorem invStore_foldl (es : List TaskEvent) :
    ∀ s : TaskStore, serializedFrom s es = true → InvStore s →
      InvStore (es.foldl taskStep s) := by
  induction es with
  | nil => exact fun s _ h => h
  | cons e es ih =>
    intro s hser h
    simp only [serializedFrom, Bool.and_eq_true] at hser
    simp only [List.foldl_cons]
    exact ih (taskStep s e) hser.2 (invStore_step s e h hser.1)

theorem taskStep_allowed (s : TaskStore) (hinv : InvStore s) (e : TaskEvent)
    (id : Nat) (hready : claimReadyB s e = true) :
    allowedChange (s.status id) ((taskStep s e).status id) := by
  cases e with
  | create cid =>
    simp only [taskStep]
    by_cases hc : s.status cid = none
    · rw [if_pos hc]
      show allowedChange (s.status id)
        (if id = cid then some TaskStatus.pending else s.status id)
      by_cases hic : id = cid
      · rw [if_pos hic, hic, hc]
        exact Or.inr (Or.inl ⟨rfl, rfl⟩)
      · rw [if_neg hic]
        exact Or.inl rfl
    · rw [if_neg hc]
      exact Or.inl rfl
  | findPending ids =>
    simp only [taskStep]
    by_cases hc : ids.Nodup ∧ ∀ i ∈ ids, s.status i = some TaskStatus.pending
    · rw [if_pos hc]
      exact Or.inl rfl
    · rw [if_neg hc]
      exact Or.inl rfl
  | markProcessing k =>
    simp only [taskStep]
    rcases hk : s.pendingClaims[k]? with _ | ids
    · simp only [hk]
      exact Or.inl rfl
    · simp only [hk]
      show allowedChange (s.status id)
        (if id ∈ ids then some TaskStatus.processing else s.status id)
      by_cases hid : id ∈ ids
      · rw [if_pos hid, claimReady_pending s k ids hk hready id hid]
        exact Or.inr (Or.inr (Or.inl ⟨rfl, rfl⟩))
      · rw [if_neg hid]
        exact Or.inl rfl
  | workerComplete cid =>
    simp only [taskStep]
    by_cases hc : cid ∈ s.dispatched
    · rw [if_pos hc]
      show allowedChange (s.status id)
        (if id = cid then some TaskStatus.completed else s.status id)
      by_cases hic : id = cid
      · rw [if_pos hic, hic, hinv.2.1 cid hc]
        exact Or.inr (Or.inr (Or.inr ⟨rfl, Or.inl rfl⟩))
      · rw [if_neg hic]
        exact Or.inl rfl
    · rw [if_neg hc]
      exact Or.inl rfl
  | workerFail cid =>
    simp only [taskStep]
    by_cases hc : cid ∈ s.dispatched
    · rw [if_pos hc]
      show allowedChange (s.status id)
        (if id = cid then some TaskStatus.failed else s.status id)
      by_cases hic : id = cid
      · rw [if_pos hic, hic, hinv.2.1 cid hc]
        exact Or.inr (Or.inr (Or.inr ⟨rfl, Or.inr rfl⟩))
      · rw [if_neg hic]
        exact Or.inl rfl
    · rw [if_neg hc]
      exact Or.inl rfl

/-- C9 counterexample: two overlapping claim phases both snapshot the PENDING
document 0 — the `find` of a second `setInterval` tick (or of a concurrent
dispatcher) runs before the first tick's `updateMany`.  The first batch is
marked PROCESSING, dispatched and COMPLETED; then the second batch's
status-filterless `updateMany({_id: {$in: [0]}})` moves the COMPLETED
document back to PROCESSING — a transition the claim forbids. -/
theorem task_claim_race_cex :
    (runTasks [TaskEvent.create 0, TaskEvent.findPending [0],
        TaskEvent.findPending [0], TaskEvent.markProcessing 0,
        TaskEvent.workerComplete 0]).status 0 = some TaskStatus.completed ∧
    (taskStep (runTasks [TaskEvent.create 0, TaskEvent.findPending [0],
        TaskEvent.findPending [0], TaskEvent.markProcessing 0,
        TaskEvent.workerComplete 0]) (TaskEvent.markProcessing 0)).status 0 =
      some TaskStatus.processing ∧
    ¬ allowedChange (some TaskStatus.completed) (some TaskStatus.processing) := by
  refine ⟨by decide, by decide, ?_⟩
  unfold allowedChange
  decide

/-- C9 (amended): tasks are inserted PENDING, the claim snapshot selects only
PENDING documents, and each dispatched task receives exactly one terminal
write (COMPLETED or FAILED).  Provided claim phases are serialized — every
batch's `updateMany` runs while its snapshot's ids are still PENDING, as
with a single dispatcher whose ticks do not overlap — every document's
status moves only along PENDING → PROCESSING → (COMPLETED or FAILED), and a
COMPLETED or FAILED document never changes status again.  Without that
serialization the status-filterless `updateMany` of `fetchPendingDocs` can
re-mark a terminal document PROCESSING (see the counterexample). -/
theorem task_status_transitions (es : List TaskEvent) (e : TaskEvent) (id : Nat)
    (hser : serializedFrom initStore (es ++ [e]) = true) :
    allowedChange ((runTasks es).status id) ((taskStep (runTasks es) e).status id) := by
  rcases serializedFrom_append es e initStore hser with ⟨h1, h2⟩
  exact taskStep_allowed (runTasks es)
    (invStore_foldl es initStore h1 invStore_init) e id h2

/-- Witness for C9: a serialized trace — create, snapshot, mark, then the
worker's terminal write. -/
theorem task_status_transitions_witness :
    allowedChange
      ((runTasks [TaskEvent.create 0, TaskEvent.findPending [0],
          TaskEvent.markProcessing 0]).status 0)
      ((taskStep (runTasks [TaskEvent.create 0, TaskEvent.findPending [0],
          TaskEvent.markProcessing 0]) (TaskEvent.workerComplete 0)).status 0) :=
  task_status_transitions
    [TaskEvent.create 0, TaskEvent.findPending [0], TaskEvent.markProcessing 0]
    (TaskEvent.workerComplete 0) 0 (by decide)

/-- Witness for C10: capacity 1, three operations. -/
theorem lru_capacity_bound_witness :
    (runCacheOps (emptyLRU Nat Nat 1 none)
      [CacheOp.put 0 10 0, CacheOp.put 1 20 1, CacheOp.get 0 2]).cache.length ≤ 1 :=
  lru_capacity_bound Nat Nat 1 (by decide) none
    [CacheOp.put 0 10 0, CacheOp.put 1 20 1, CacheOp.get 0 2]

end Sched
